import Mathlib

/-!
Verification of the finreport selection / summarization / LLM-client core.

The Python sources are shallowly embedded below:
* `core/selectors/select_finance_yahoo.py` and
  `src/aifinreport/analysis/selection.py` (scoring, dedup, MMR, selection),
* `core/summarize/map_reduce.py` and
  `src/aifinreport/analysis/summarization.py` (paragraph handling, map stage,
  final synthesis),
* `core/llm/llm.py` and `src/aifinreport/llm/client.py` (retry / fallback
  orchestration),
* the driver `scripts/make_ticker_period_summary.py` (`run`).

Python strings are modelled through their character lists (`String.data`),
`len` is the character count, machine floats are modelled by `ℚ` (the float
formulas here involve only small decimal constants, where rounding is not
load-bearing), and the external services (database query, sklearn TF-IDF
cosine matrix, the LLM HTTP backends) are inputs of the embedded functions.
-/

namespace Finreport

open scoped List

/-! ### Python string primitives, over character lists -/

/-- Python `str.lower()` (per-character, as used on the ASCII keyword data). -/
def pyLower (s : String) : String := String.mk (s.data.map Char.toLower)

/-- Python `str.strip()`: drop whitespace from both ends. -/
def pyStrip (s : String) : String :=
  String.mk (((s.data.dropWhile Char.isWhitespace).reverse.dropWhile Char.isWhitespace).reverse)

/-- Python `str.strip(chars)`: drop any of the given characters from both ends. -/
def pyStripChars (cs : String) (s : String) : String :=
  String.mk (((s.data.dropWhile (cs.data.contains ·)).reverse.dropWhile
    (cs.data.contains ·)).reverse)

/-- Python `len` on strings: number of characters. -/
def pyLen (s : String) : ℕ := s.data.length

/-- Python `s[:n]` slicing on strings. -/
def pyTake (s : String) (n : ℕ) : String := String.mk (s.data.take n)

/-- Python substring test `needle in hay`. -/
def pyContains (hay needle : String) : Bool :=
  hay.data.tails.any (fun t => needle.data.isPrefixOf t)

/-- Python `sep.join(parts)`. -/
def joinSep (sep : String) : List String → String
  | [] => ""
  | [p] => p
  | p :: q :: ps => p ++ sep ++ joinSep sep (q :: ps)

/-- Split a string at every newline character (Python `s.split("\n")`;
also used to model `str.splitlines`, whose extra separators do not occur in
the texts the pipeline builds). -/
def splitNl (s : String) : List String :=
  (s.data.foldr
    (fun c acc => if c = '\n' then [] :: acc else (c :: acc.headD []) :: acc.tail)
    [[]]).map String.mk

/-! ### Body-length score, from `_score_body_length`
(identical in `select_finance_yahoo.py` and `analysis/selection.py`). -/

/-- Plateau curve on the body character count `n`:
`0` up to 500 chars, linear ramp to `1.0` at 2500, taper to `0.8` at 6000,
capped at `0.8` beyond.  The Python branches are tested in source order. -/
def score_body_length (n : ℕ) : ℚ :=
  if n ≤ 500 then 0
  else if 6000 ≤ n then 0.8
  else if n ≤ 2500 then ((n : ℚ) - 500) / 2000
  else 0.8 + (6000 - (n : ℚ)) / 3500 * 0.2

/-- C1: for every body character count, the body-length score is `0` at or
below 500 characters, strictly increasing on `(500, 2500]`, within
`[0.8, peak]` (the peak being the score at 2500 characters, namely `1`) on
`[2500, 6000]`, and exactly `0.8` from 6000 characters on. -/
theorem c1_score_body_length_plateau (m n : ℕ) :
    (n ≤ 500 → score_body_length n = 0)
    ∧ (500 < m → m < n → n ≤ 2500 → score_body_length m < score_body_length n)
    ∧ (2500 ≤ n → n ≤ 6000 →
        0.8 ≤ score_body_length n ∧ score_body_length n ≤ score_body_length 2500)
    ∧ (6000 ≤ n → score_body_length n = 0.8)
    ∧ score_body_length 2500 = 1 := by
  have hpeak : score_body_length 2500 = 1 := by norm_num [score_body_length]
  refine ⟨fun h => by simp [score_body_length, h], ?_, ?_, fun h => ?_, hpeak⟩
  · intro hm hmn hn
    have hm6 : ¬ (6000 ≤ m) := by omega
    have hn6 : ¬ (6000 ≤ n) := by omega
    have hm5 : ¬ (m ≤ 500) := by omega
    have hn5 : ¬ (n ≤ 500) := by omega
    have hm2 : m ≤ 2500 := by omega
    have hmq : (m : ℚ) < n := by exact_mod_cast hmn
    simp only [score_body_length, if_neg hm5, if_neg hm6, if_pos hm2,
      if_neg hn5, if_neg hn6, if_pos hn]
    have h2000 : (0:ℚ) < 2000 := by norm_num
    rw [div_lt_div_iff₀ h2000 h2000]
    nlinarith
  · intro h1 h2
    rw [hpeak]
    rcases Nat.lt_or_ge n 6000 with h6 | h6
    · rcases Nat.eq_or_lt_of_le h1 with he | hlt
      · subst he
        rw [hpeak]; norm_num
      · have hn5 : ¬ (n ≤ 500) := by omega
        have hn6 : ¬ (6000 ≤ n) := by omega
        have hn2 : ¬ (n ≤ 2500) := by omega
        simp only [score_body_length, if_neg hn5, if_neg hn6, if_neg hn2]
        have hq1 : (n : ℚ) ≤ 6000 := by exact_mod_cast h2
        have hq2 : (2500 : ℚ) < n := by exact_mod_cast hlt
        constructor <;> nlinarith [sq_nonneg ((n : ℚ) - 6000)]
    · have hn5 : ¬ (n ≤ 500) := by omega
      simp only [score_body_length, if_neg hn5, if_pos h6]
      norm_num
  · have hn5 : ¬ (n ≤ 500) := by omega
    simp [score_body_length, hn5, h]

/-- C1 witness: the four regimes of the plateau theorem at concrete counts. -/
theorem c1_score_body_length_plateau_witness :
    score_body_length 400 = 0
    ∧ score_body_length 1000 < score_body_length 1500
    ∧ (0.8 ≤ score_body_length 4000 ∧ score_body_length 4000 ≤ score_body_length 2500)
    ∧ score_body_length 7000 = 0.8 :=
  ⟨(c1_score_body_length_plateau 0 400).1 (by norm_num),
   (c1_score_body_length_plateau 1000 1500).2.1 (by norm_num) (by norm_num) (by norm_num),
   (c1_score_body_length_plateau 0 4000).2.2.1 (by norm_num) (by norm_num),
   (c1_score_body_length_plateau 0 7000).2.2.2.1 (by norm_num)⟩

/-! ### Article records and deduplication, from `select_articles`
(`analysis/selection.py`).  The SQL query feeding the pipeline is an external
collaborator; the embedded pipeline starts from the queried rows.  Only the
fields the modelled stages read are kept (`id`, `url`, `tags`, … are carried
through untouched by the Python code). -/

/-- A queried `news_raw` row.  Optional fields model pandas `NaN` / SQL NULL;
`published_utc` is the publish timestamp (any linearly ordered stamp). -/
structure Article where
  title : Option String
  source : Option String
  published_utc : ℤ
  description : Option String
  summary : Option String
  full_body_chars : Option ℕ
deriving DecidableEq

/-- Dedup key from `select_articles`:
`df["title"].fillna("").str.lower() + "||" + df["source"].fillna("")`. -/
def dedupKey (a : Article) : String :=
  pyLower (a.title.getD "") ++ "||" ++ (a.source.getD "")

/-- Insertion step of the ascending `published_utc` sort. -/
def insertByTime (a : Article) : List Article → List Article
  | [] => [a]
  | b :: t => if a.published_utc ≤ b.published_utc then a :: b :: t
              else b :: insertByTime a t

/-- `df.sort_values("published_utc")`: sort rows ascending by publish time.
pandas' default quicksort is not stable; every theorem below uses this sort
only under distinct-timestamp hypotheses, where all correct sorts agree. -/
def sortByTime (l : List Article) : List Article := l.foldr insertByTime []

/-- `df.drop_duplicates("_key", keep="last")`: keep a row iff no later row
carries the same key, preserving the positions of the kept rows. -/
def keepLastByKey : List Article → List Article
  | [] => []
  | x :: xs =>
    if xs.any (fun y => dedupKey y = dedupKey x) then keepLastByKey xs
    else x :: keepLastByKey xs

/-- The dedup stage of `select_articles`: sort ascending by publish time,
then keep the last occurrence of every `(title, source)` key. -/
def dedupArticles (l : List Article) : List Article := keepLastByKey (sortByTime l)

lemma insertByTime_perm (a : Article) (l : List Article) :
    insertByTime a l ~ a :: l := by
  induction l with
  | nil => simp [insertByTime]
  | cons b t ih =>
    by_cases h : a.published_utc ≤ b.published_utc
    · simp [insertByTime, h]
    · simp only [insertByTime, if_neg h]
      exact (List.Perm.cons b ih).trans (List.Perm.swap a b t)

lemma sortByTime_perm (l : List Article) : sortByTime l ~ l := by
  induction l with
  | nil => simp [sortByTime]
  | cons a t ih =>
    simpa [sortByTime] using (insertByTime_perm a (sortByTime t)).trans (List.Perm.cons a ih)

lemma insertByTime_pairwise (a : Article) (l : List Article)
    (h : l.Pairwise (fun x y => x.published_utc ≤ y.published_utc)) :
    (insertByTime a l).Pairwise (fun x y => x.published_utc ≤ y.published_utc) := by
  induction l with
  | nil => simp [insertByTime]
  | cons b t ih =>
    rcases List.pairwise_cons.mp h with ⟨hb, ht⟩
    by_cases hab : a.published_utc ≤ b.published_utc
    · rw [insertByTime, if_pos hab]
      refine List.pairwise_cons.mpr ⟨?_, h⟩
      intro y hy
      rcases List.mem_cons.mp hy with rfl | hy
      · exact hab
      · exact le_trans hab (hb y hy)
    · rw [insertByTime, if_neg hab]
      refine List.pairwise_cons.mpr ⟨?_, ih ht⟩
      intro y hy
      rcases List.mem_cons.mp ((insertByTime_perm a t).mem_iff.mp hy) with rfl | hy
      · exact le_of_not_le hab
      · exact hb y hy

lemma sortByTime_pairwise (l : List Article) :
    (sortByTime l).Pairwise (fun x y => x.published_utc ≤ y.published_utc) := by
  induction l with
  | nil => simp [sortByTime]
  | cons a t ih => exact insertByTime_pairwise a (sortByTime t) ih

/-- A permutation between two lists that are strictly sorted on the same
numeric key is the identity. -/
lemma perm_eq_of_pairwise_lt {α : Type} (f : α → ℤ) :
    ∀ (l₁ l₂ : List α), l₁ ~ l₂ →
      l₁.Pairwise (fun x y => f x < f y) → l₂.Pairwise (fun x y => f x < f y) → l₁ = l₂ := by
  intro l₁
  induction l₁ with
  | nil => intro l₂ hp _ _; simpa using hp.nil_eq.symm
  | cons a t ih =>
    intro l₂ hp h1 h2
    cases l₂ with
    | nil => exact absurd hp.symm (by simp)
    | cons b t₂ =>
      rcases List.pairwise_cons.mp h1 with ⟨ha, ht⟩
      rcases List.pairwise_cons.mp h2 with ⟨hb, ht₂⟩
      have hab : a = b := by
        by_contra hne
        have haMem : a ∈ b :: t₂ := hp.subset (by simp)
        have haT₂ : a ∈ t₂ := by
          rcases List.mem_cons.mp haMem with rfl | h
          · exact absurd rfl hne
          · exact h
        have hbMem : b ∈ a :: t := hp.symm.subset (by simp)
        have hbT : b ∈ t := by
          rcases List.mem_cons.mp hbMem with rfl | h
          · exact absurd rfl (fun hx => hne hx.symm)
          · exact h
        have h1' := ha b hbT
        have h2' := hb a haT₂
        omega
      subst hab
      exact congrArg (a :: ·) (ih t₂ (List.Perm.cons_inv hp) ht ht₂)

/-- C3 counterexample: the claim predicts `[B, A2]` for every input order, but
when the unique-keyed `B` is published after the duplicate `A2`, the
time-ascending dedup output is `[A2, B]`. -/
theorem c3_dedup_counterexample :
    dedupArticles
        [⟨some "Dup", some "y", 1, none, none, none⟩,
         ⟨some "Other", some "y", 9, none, none, none⟩,
         ⟨some "dup", some "y", 5, none, none, none⟩]
      = [⟨some "dup", some "y", 5, none, none, none⟩,
         ⟨some "Other", some "y", 9, none, none, none⟩]
    ∧ dedupArticles
        [⟨some "Dup", some "y", 1, none, none, none⟩,
         ⟨some "Other", some "y", 9, none, none, none⟩,
         ⟨some "dup", some "y", 5, none, none, none⟩]
      ≠ [⟨some "Other", some "y", 9, none, none, none⟩,
         ⟨some "dup", some "y", 5, none, none, none⟩] := by
  constructor
  · decide
  · decide

/-- C3 amended: for records `A`, `B`, `A2` where `A` and `A2` share the
`(lowercased title, source)` key, `A2` is published after `A`, `B`'s key is
distinct and its timestamp differs from both, deduplication of any ordering
of the three drops `A` and keeps `B` and `A2` — ordered by ascending publish
time, hence `[B, A2]` exactly when `B` is published before `A2`. -/
lemma pairwise_triple {α : Type} (R : α → α → Prop) (a b c : α)
    (hab : R a b) (hac : R a c) (hbc : R b c) : ([a, b, c]).Pairwise R := by
  refine List.Pairwise.cons ?_ (List.Pairwise.cons ?_ (List.Pairwise.cons ?_ List.Pairwise.nil))
  · intro y hy
    rcases List.mem_cons.mp hy with rfl | hy
    · exact hab
    · rcases List.mem_cons.mp hy with rfl | hy
      · exact hac
      · simp at hy
  · intro y hy
    rcases List.mem_cons.mp hy with rfl | hy
    · exact hbc
    · simp at hy
  · intro y hy
    simp at hy

lemma keepLast_cons_dup {x : Article} {xs : List Article}
    (h : xs.any (fun y => dedupKey y = dedupKey x) = true) :
    keepLastByKey (x :: xs) = keepLastByKey xs := by
  rw [keepLastByKey, if_pos h]

lemma keepLast_cons_new {x : Article} {xs : List Article}
    (h : xs.any (fun y => dedupKey y = dedupKey x) = false) :
    keepLastByKey (x :: xs) = x :: keepLastByKey xs := by
  rw [keepLastByKey, if_neg (by simp [h])]

theorem c3_dedup_amended (A B A2 : Article) (l : List Article)
    (hkey : dedupKey A = dedupKey A2)
    (hkeyB : dedupKey B ≠ dedupKey A)
    (hAA : A.published_utc < A2.published_utc)
    (hBA : B.published_utc ≠ A.published_utc)
    (hBA2 : B.published_utc ≠ A2.published_utc)
    (hperm : List.Perm l [A, B, A2]) :
    dedupArticles l =
      if B.published_utc < A2.published_utc then [B, A2] else [A2, B] := by
  have hkey2 : dedupKey A2 = dedupKey A := hkey.symm
  have hkeyB2 : dedupKey B ≠ dedupKey A2 := fun h => hkeyB (h.trans hkey2)
  have hs : List.Perm (sortByTime l) [A, B, A2] := (sortByTime_perm l).trans hperm
  have hne : (sortByTime l).Pairwise (fun x y => x.published_utc ≠ y.published_utc) := by
    refine (List.Perm.pairwise_iff (fun h => h.symm) hs).mpr ?_
    exact pairwise_triple _ A B A2 (fun h => hBA h.symm) (by omega) hBA2
  have hslt : (sortByTime l).Pairwise (fun x y => x.published_utc < y.published_utc) :=
    ((sortByTime_pairwise l).and hne).imp (fun h => lt_of_le_of_ne h.1 h.2)
  have condBfalse : ∀ u v : Article, dedupKey u = dedupKey A → dedupKey v = dedupKey A →
      ([u, v].any (fun y => dedupKey y = dedupKey B)) = false := by
    intro u v hu hv
    simp only [List.any_cons, List.any_nil, Bool.or_false, Bool.or_eq_false_iff,
      decide_eq_false_iff_not]
    exact ⟨fun h => hkeyB (hu ▸ h).symm, fun h => hkeyB (hv ▸ h).symm⟩
  rcases lt_or_gt_of_ne hBA with hB1 | hB1
  · -- B before A: sorted order is [B, A, A2]
    have hifc : B.published_utc < A2.published_utc := lt_trans hB1 hAA
    have hcp : List.Perm (sortByTime l) [B, A, A2] :=
      hs.trans (List.Perm.swap B A [A2])
    have hclt : ([B, A, A2]).Pairwise (fun x y => x.published_utc < y.published_utc) :=
      pairwise_triple _ B A A2 hB1 hifc hAA
    have hc : sortByTime l = [B, A, A2] :=
      perm_eq_of_pairwise_lt (fun x => x.published_utc) _ _ hcp hslt hclt
    rw [dedupArticles, hc, if_pos hifc,
      keepLast_cons_new (condBfalse A A2 rfl hkey2),
      keepLast_cons_dup (by simp [List.any_cons, hkey2]),
      keepLast_cons_new (by simp), keepLastByKey]
  · rcases lt_or_gt_of_ne hBA2 with hB2 | hB2
    · -- A before B before A2: sorted order is [A, B, A2]
      have hclt : ([A, B, A2]).Pairwise (fun x y => x.published_utc < y.published_utc) :=
        pairwise_triple _ A B A2 (by omega) hAA hB2
      have hc : sortByTime l = [A, B, A2] :=
        perm_eq_of_pairwise_lt (fun x => x.published_utc) _ _ hs hslt hclt
      rw [dedupArticles, hc, if_pos hB2,
        keepLast_cons_dup (by simp [List.any_cons, hkey2, hkeyB2]),
        keepLast_cons_new (by simp only [List.any_cons, List.any_nil, Bool.or_false,
          decide_eq_false_iff_not]; exact fun h => hkeyB2 h.symm),
        keepLast_cons_new (by simp), keepLastByKey]
    · -- A2 before B: sorted order is [A, A2, B]
      have hcp : List.Perm (sortByTime l) [A, A2, B] :=
        hs.trans (List.Perm.cons A (List.Perm.swap A2 B []))
      have hclt : ([A, A2, B]).Pairwise (fun x y => x.published_utc < y.published_utc) :=
        pairwise_triple _ A A2 B hAA (by omega) hB2
      have hc : sortByTime l = [A, A2, B] :=
        perm_eq_of_pairwise_lt (fun x => x.published_utc) _ _ hcp hslt hclt
      rw [dedupArticles, hc, if_neg (by omega),
        keepLast_cons_dup (by simp [List.any_cons, hkey2, hkeyB]),
        keepLast_cons_new (by simp only [List.any_cons, List.any_nil, Bool.or_false,
          decide_eq_false_iff_not]; exact hkeyB2),
        keepLast_cons_new (by simp), keepLastByKey]

/-- C3 witness: the amended theorem on a concrete triple, fed in the order
`[A2, B, A]`, with `B` published between the two duplicates. -/
theorem c3_dedup_amended_witness :
    dedupArticles
        [⟨some "dup", some "y", 5, none, none, none⟩,
         ⟨some "Other", some "y", 2, none, none, none⟩,
         ⟨some "Dup", some "y", 1, none, none, none⟩]
      = [⟨some "Other", some "y", 2, none, none, none⟩,
         ⟨some "dup", some "y", 5, none, none, none⟩] := by
  have h := c3_dedup_amended
    ⟨some "Dup", some "y", 1, none, none, none⟩
    ⟨some "Other", some "y", 2, none, none, none⟩
    ⟨some "dup", some "y", 5, none, none, none⟩
    [⟨some "dup", some "y", 5, none, none, none⟩,
     ⟨some "Other", some "y", 2, none, none, none⟩,
     ⟨some "Dup", some "y", 1, none, none, none⟩]
    (by decide) (by decide) (by decide) (by decide) (by decide) (by decide)
  simpa using h

/-! ### MMR diversity, from `apply_mmr_diversity` (`analysis/selection.py`).
The TF-IDF cosine-similarity matrix is produced by sklearn (an external
collaborator); it enters the embedding as the matrix `sim`.  A scored
article is the record plus its `__score` field. -/

/-- An article dict carrying its `__score` field. -/
abbrev ScoredArt : Type := Article × ℚ

/-- Python `max(iterable, key=k)` / the inner best-candidate loop: the first
element attaining the maximal key (later elements replace the best only on a
strictly greater key). -/
def pickBest (key : ℕ → ℚ) : List ℕ → Option ℕ
  | [] => none
  | c :: rest => some (rest.foldl (fun b x => if key b < key x then x else b) c)

/-- The MMR objective for a candidate:
`λ·relevance − (1−λ)·max similarity to the already selected` (the selected
list is never empty when this is evaluated). -/
def mmrKey (score : ℕ → ℚ) (sim : ℕ → ℕ → ℚ) (lam : ℚ) (selected : List ℕ) (c : ℕ) : ℚ :=
  lam * score c -
    (1 - lam) * (match selected with
      | [] => 0
      | s :: rest => rest.foldl (fun acc j => max acc (sim c j)) (sim c s))

/-- The `while len(selected_idx) < max_articles and remaining_idx` loop.
`remaining` shrinks by one element per iteration, so fuel `remaining.length`
is enough; the iteration order of the Python set of small ints is its
ascending order, matched by keeping `remaining` ordered. -/
def mmrLoop (score : ℕ → ℚ) (sim : ℕ → ℕ → ℚ) (lam : ℚ) (maxA : ℕ) :
    ℕ → List ℕ → List ℕ → List ℕ
  | 0, selected, _ => selected
  | fuel + 1, selected, remaining =>
    if selected.length < maxA ∧ remaining ≠ [] then
      match pickBest (mmrKey score sim lam selected) remaining with
      | some c => mmrLoop score sim lam maxA fuel (selected ++ [c]) (remaining.erase c)
      | none => selected
    else selected

/-- Index trace of `apply_mmr_diversity` on `n` scored articles: seed with the
highest-scoring index, then run the MMR loop. -/
def mmrIndices (scores : List ℚ) (sim : ℕ → ℕ → ℚ) (lam : ℚ) (maxA : ℕ) : List ℕ :=
  let n := scores.length
  let score := fun i => scores.getD i 0
  match pickBest score (List.range n) with
  | none => []
  | some b => mmrLoop score sim lam maxA (n - 1) [b] ((List.range n).erase b)

/-- `apply_mmr_diversity(articles, max_articles, lambda_param)`: return the
input when it already fits, otherwise select indices by MMR and read the
articles back off in selection order. -/
def apply_mmr_diversity (articles : List ScoredArt) (sim : ℕ → ℕ → ℚ)
    (maxA : ℕ) (lam : ℚ) : List ScoredArt :=
  if articles.length ≤ maxA then articles
  else (mmrIndices (articles.map Prod.snd) sim lam maxA).filterMap
    (fun i => articles[i]?)

lemma foldl_pick_mem (key : ℕ → ℚ) :
    ∀ (t : List ℕ) (a : ℕ),
      t.foldl (fun b x => if key b < key x then x else b) a ∈ a :: t := by
  intro t
  induction t with
  | nil => intro a; simp
  | cons b t ih =>
    intro a
    simp only [List.foldl_cons]
    by_cases hk : key a < key b
    · rw [if_pos hk]
      exact List.mem_cons_of_mem _ (ih b)
    · rw [if_neg hk]
      rcases List.mem_cons.mp (ih a) with h | h
      · exact List.mem_cons.mpr (Or.inl h)
      · exact List.mem_cons_of_mem _ (List.mem_cons_of_mem _ h)

lemma pickBest_mem (key : ℕ → ℚ) (l : List ℕ) (c : ℕ) (h : pickBest key l = some c) :
    c ∈ l := by
  cases l with
  | nil => simp [pickBest] at h
  | cons a rest =>
    simp only [pickBest, Option.some_inj] at h
    exact h ▸ foldl_pick_mem key rest a

lemma mmrLoop_length (score : ℕ → ℚ) (sim : ℕ → ℕ → ℚ) (lam : ℚ) (maxA : ℕ) :
    ∀ (fuel : ℕ) (selected remaining : List ℕ), remaining.length ≤ fuel →
      (mmrLoop score sim lam maxA fuel selected remaining).length
        = max selected.length (min maxA (selected.length + remaining.length)) := by
  intro fuel
  induction fuel with
  | zero =>
    intro selected remaining hlen
    have : remaining = [] := List.eq_nil_of_length_eq_zero (by omega)
    subst this
    rw [mmrLoop]
    simp only [List.length_nil, Nat.add_zero]
    omega
  | succ fuel ih =>
    intro selected remaining hlen
    rw [mmrLoop]
    by_cases hcond : selected.length < maxA ∧ remaining ≠ []
    · rw [if_pos hcond]
      have hne : remaining ≠ [] := hcond.2
      obtain ⟨a, rest, rfl⟩ := List.exists_cons_of_ne_nil hne
      obtain ⟨c, hc⟩ : ∃ c, pickBest (mmrKey score sim lam selected) (a :: rest) = some c :=
        ⟨_, rfl⟩
      rw [hc]
      have hcm : c ∈ a :: rest := pickBest_mem _ _ _ hc
      have herase : ((a :: rest).erase c).length = rest.length := by
        rw [List.length_erase_of_mem hcm, List.length_cons]
        omega
      have hrec := ih (selected ++ [c]) ((a :: rest).erase c) (by
        rw [herase]
        have := hlen
        simp only [List.length_cons] at this
        omega)
      rw [hrec]
      have hl1 : (selected ++ [c]).length = selected.length + 1 := by simp
      have hl3 : (a :: rest).length = rest.length + 1 := by simp
      rw [hl1, herase, hl3]
      have h1 : selected.length < maxA := hcond.1
      omega
    · rw [if_neg hcond]
      rcases Decidable.not_and_iff_or_not.mp hcond with h | h
      · omega
      · have : remaining = [] := by
          by_contra hk
          exact h hk
        subst this
        simp only [List.length_nil, Nat.add_zero]
        omega

lemma mmrLoop_nodup_subset (score : ℕ → ℚ) (sim : ℕ → ℕ → ℚ) (lam : ℚ) (maxA : ℕ) :
    ∀ (fuel : ℕ) (selected remaining : List ℕ),
      selected.Nodup → remaining.Nodup → (∀ x ∈ selected, x ∉ remaining) →
      (mmrLoop score sim lam maxA fuel selected remaining).Nodup
        ∧ ∀ x ∈ mmrLoop score sim lam maxA fuel selected remaining,
            x ∈ selected ∨ x ∈ remaining := by
  intro fuel
  induction fuel with
  | zero =>
    intro selected remaining hsel _ _
    exact ⟨hsel, fun x hx => Or.inl hx⟩
  | succ fuel ih =>
    intro selected remaining hsel hrem hdisj
    rw [mmrLoop]
    by_cases hcond : selected.length < maxA ∧ remaining ≠ []
    · rw [if_pos hcond]
      obtain ⟨a, rest, rfl⟩ := List.exists_cons_of_ne_nil hcond.2
      obtain ⟨c, hc⟩ : ∃ c, pickBest (mmrKey score sim lam selected) (a :: rest) = some c :=
        ⟨_, rfl⟩
      rw [hc]
      have hcm : c ∈ a :: rest := pickBest_mem _ _ _ hc
      have hcnotsel : c ∉ selected := fun hx => hdisj c hx hcm
      have hsel' : (selected ++ [c]).Nodup := by
        rw [List.nodup_append]
        refine ⟨hsel, List.nodup_singleton c, fun x hx hxc => ?_⟩
        have hxc' : x = c := by simpa using hxc
        exact hcnotsel (hxc' ▸ hx)
      have hrem' : ((a :: rest).erase c).Nodup := hrem.erase c
      have hdisj' : ∀ x ∈ selected ++ [c], x ∉ (a :: rest).erase c := by
        intro x hx hmem
        rcases List.mem_append.mp hx with hx | hx
        · exact hdisj x hx (List.mem_of_mem_erase hmem)
        · have : x = c := by simpa using hx
          subst this
          exact (hrem.mem_erase_iff.mp hmem).1 rfl
      obtain ⟨hn, hsub⟩ := ih (selected ++ [c]) ((a :: rest).erase c) hsel' hrem' hdisj'
      refine ⟨hn, fun x hx => ?_⟩
      rcases hsub x hx with hx2 | hx2
      · rcases List.mem_append.mp hx2 with hx3 | hx3
        · exact Or.inl hx3
        · have : x = c := by simpa using hx3
          exact Or.inr (this ▸ hcm)
      · exact Or.inr (List.mem_of_mem_erase hx2)
    · rw [if_neg hcond]
      exact ⟨hsel, fun x hx => Or.inl hx⟩

lemma mmrIndices_spec (scores : List ℚ) (sim : ℕ → ℕ → ℚ) (lam : ℚ) (maxA : ℕ)
    (h : maxA < scores.length) :
    (mmrIndices scores sim lam maxA).Nodup
      ∧ (mmrIndices scores sim lam maxA).length = max 1 (min maxA scores.length)
      ∧ ∀ i ∈ mmrIndices scores sim lam maxA, i < scores.length := by
  have hn : 0 < scores.length := by omega
  obtain ⟨b, hb⟩ : ∃ b, pickBest (fun i => scores.getD i 0) (List.range scores.length)
      = some b := by
    cases hrange : List.range scores.length with
    | nil =>
      have hcon : scores.length = 0 := by simpa using congrArg List.length hrange
      exact absurd hcon (by omega)
    | cons a rest => exact ⟨_, rfl⟩
  have hbmem : b ∈ List.range scores.length := pickBest_mem _ _ _ hb
  have hblt : b < scores.length := List.mem_range.mp hbmem
  have hrn : (List.range scores.length).Nodup := List.nodup_range _
  have herase : ((List.range scores.length).erase b).length = scores.length - 1 := by
    rw [List.length_erase_of_mem hbmem, List.length_range]
  have hunf : mmrIndices scores sim lam maxA
      = mmrLoop (fun i => scores.getD i 0) sim lam maxA (scores.length - 1) [b]
          ((List.range scores.length).erase b) := by
    rw [mmrIndices]
    simp only [hb]
  obtain ⟨hnd, hsub⟩ := mmrLoop_nodup_subset (fun i => scores.getD i 0) sim lam maxA
    (scores.length - 1) [b] ((List.range scores.length).erase b)
    (List.nodup_singleton b) (hrn.erase b)
    (by
      intro x hx hmem
      have : x = b := by simpa using hx
      subst this
      exact (hrn.mem_erase_iff.mp hmem).1 rfl)
  have hlen := mmrLoop_length (fun i => scores.getD i 0) sim lam maxA
    (scores.length - 1) [b] ((List.range scores.length).erase b) (by rw [herase])
  refine ⟨hunf ▸ hnd, ?_, ?_⟩
  · rw [hunf, hlen, herase]
    simp only [List.length_singleton]
    omega
  · intro i hi
    rcases hsub i (hunf ▸ hi) with hx | hx
    · have : i = b := by simpa using hx
      omega
    · exact List.mem_range.mp (List.mem_of_mem_erase hx)

lemma filterMap_getElem_length {α : Type} (l : List α) :
    ∀ idxs : List ℕ, (∀ i ∈ idxs, i < l.length) →
      (idxs.filterMap (fun i => l[i]?)).length = idxs.length := by
  intro idxs
  induction idxs with
  | nil => intro _; simp
  | cons i t ih =>
    intro h
    have hi : i < l.length := h i (List.mem_cons_self _ _)
    have ht : ∀ j ∈ t, j < l.length := fun j hj => h j (List.mem_cons_of_mem _ hj)
    simp only [List.filterMap_cons, List.getElem?_eq_getElem hi, List.length_cons]
    rw [ih ht]

/-- C2 counterexample: with `N = 0` and one input article (`N < |input|`), the
MMR selector still returns the seeded highest-scoring article, so the output
size is `1`, not `min(0, 1) = 0`. -/
theorem c2_mmr_counterexample :
    (apply_mmr_diversity [(⟨some "t", some "s", 0, none, none, none⟩, (1 : ℚ))]
        (fun _ _ => 0) 0 (1 / 2)).length = 1
    ∧ ¬ ((1 : ℕ) = min 0 1) := by
  constructor
  · decide
  · decide

/-- C2 amended: the diversity selector returns the input unchanged whenever
`N ≥ |input|`; when `N < |input|` its index trace has no duplicates and the
output size is `min(N, |input|)` for `N ≥ 1`, but `1` (the seed article) when
`N = 0` — i.e. the size is `max 1 (min N |input|)`. -/
theorem c2_mmr_size_nodup (articles : List ScoredArt) (sim : ℕ → ℕ → ℚ)
    (lam : ℚ) (maxA : ℕ) :
    (articles.length ≤ maxA → apply_mmr_diversity articles sim maxA lam = articles)
    ∧ (maxA < articles.length →
        (mmrIndices (articles.map Prod.snd) sim lam maxA).Nodup
        ∧ (apply_mmr_diversity articles sim maxA lam).length
            = max 1 (min maxA articles.length)) := by
  constructor
  · intro h
    rw [apply_mmr_diversity, if_pos h]
  · intro h
    have hs : maxA < (articles.map Prod.snd).length := by simpa using h
    obtain ⟨hnd, hlen, hbnd⟩ := mmrIndices_spec (articles.map Prod.snd) sim lam maxA hs
    refine ⟨hnd, ?_⟩
    rw [apply_mmr_diversity, if_neg (by omega)]
    rw [filterMap_getElem_length articles _ (fun i hi => by
      have := hbnd i hi
      simpa using this)]
    rw [hlen]
    simp

/-- C2 witness: the amended theorem at a concrete two-article list, once with
`N = 5 ≥ |input|` (input returned unchanged) and once with `N = 1 < |input|`
(size `max 1 (min 1 2) = 1`). -/
theorem c2_mmr_size_nodup_witness :
    apply_mmr_diversity
        [(⟨some "t1", some "s", 0, none, none, none⟩, (1 : ℚ)),
         (⟨some "t2", some "s", 1, none, none, none⟩, (1 / 2 : ℚ))]
        (fun _ _ => 0) 5 (1 / 2)
      = [(⟨some "t1", some "s", 0, none, none, none⟩, (1 : ℚ)),
         (⟨some "t2", some "s", 1, none, none, none⟩, (1 / 2 : ℚ))]
    ∧ (apply_mmr_diversity
        [(⟨some "t1", some "s", 0, none, none, none⟩, (1 : ℚ)),
         (⟨some "t2", some "s", 1, none, none, none⟩, (1 / 2 : ℚ))]
        (fun _ _ => 0) 1 (1 / 2)).length
      = max 1 (min 1 2) :=
  ⟨(c2_mmr_size_nodup
      [(⟨some "t1", some "s", 0, none, none, none⟩, (1 : ℚ)),
       (⟨some "t2", some "s", 1, none, none, none⟩, (1 / 2 : ℚ))]
      (fun _ _ => 0) (1 / 2) 5).1 (by decide),
   ((c2_mmr_size_nodup
      [(⟨some "t1", some "s", 0, none, none, none⟩, (1 : ℚ)),
       (⟨some "t2", some "s", 1, none, none, none⟩, (1 / 2 : ℚ))]
      (fun _ _ => 0) (1 / 2) 1).2 (by decide)).2⟩

/-! ### Content relevance and composite score (`analysis/selection.py`). -/

/-- `FINANCIAL_KEYWORDS`, verbatim from `analysis/selection.py`. -/
def FINANCIAL_KEYWORDS : List String :=
  ["earnings", "eps", "revenue", "profit", "loss", "income",
   "guidance", "outlook", "forecast", "beat", "miss", "results",
   "q1", "q2", "q3", "q4", "quarter", "quarterly", "annual", "fy",
   "upgrade", "downgrade", "rating", "price target", "valuation",
   "surge", "plunge", "rally", "drop", "soar", "tumble",
   "jump", "fall", "rise", "climb",
   "merger", "acquisition", "buyback", "deal", "investment",
   "partnership", "stake", "divest",
   "delivery", "deliveries", "production", "sales", "growth",
   "orders", "backlog", "shipment",
   "margin", "cash flow", "dividend", "debt", "assets", "balance sheet",
   "market share", "competition", "leader", "expansion",
   "lawsuit", "investigation", "recall", "regulatory",
   "%", "billion", "million", "$", "bps"]

/-- Number of keywords occurring in `s`.  The title branch counts with
multiplicity over the list and the description/summary branches count the
set of matching keywords; the keyword list has no duplicate entries, so both
equal this filter length. -/
def countKw (s : String) : ℕ :=
  (FINANCIAL_KEYWORDS.filter (fun kw => pyContains s kw)).length

/-- `_score_content_relevance(title, description, summary)`: keyword signals
weighted 40/30/30, each saturating (6 title keywords, 10 elsewhere), summed
and capped at 1.  Python's `if title:` treats the empty string as absent. -/
def score_content_relevance (title description summary : String) : ℚ :=
  let titlePart := if title ≠ "" then min ((countKw (pyLower title) : ℚ) / 6) 1 * 0.4 else 0
  let descPart :=
    if description ≠ "" then min ((countKw (pyLower description) : ℚ) / 10) 1 * 0.3 else 0
  let summPart := if summary ≠ "" then min ((countKw (pyLower summary) : ℚ) / 10) 1 * 0.3 else 0
  min (titlePart + descPart + summPart) 1

/-- Python `round(q)` to the nearest integer, half to even. -/
def roundHalfEven (q : ℚ) : ℤ :=
  if q - ⌊q⌋ < 1 / 2 then ⌊q⌋
  else if 1 / 2 < q - ⌊q⌋ then ⌊q⌋ + 1
  else if ⌊q⌋ % 2 = 0 then ⌊q⌋ else ⌊q⌋ + 1

/-- Python `round(total, 6)` (idealised over ℚ; the float midpoint cases are
not meaningful for these scores). -/
def round6 (q : ℚ) : ℚ := (roundHalfEven (q * 1000000) : ℚ) / 1000000

/-- `calculate_article_score(article)`: 30% body-length score plus 70%
content relevance, rounded to 6 decimal places; missing fields read as
`0` / `""` through `article.get(...) or ...`. -/
def calculate_article_score (a : Article) : ℚ :=
  round6 (0.30 * score_body_length (a.full_body_chars.getD 0)
    + 0.70 * score_content_relevance (a.title.getD "") (a.description.getD "")
        (a.summary.getD ""))

/-! ### `select_articles` (post-query pipeline, `analysis/selection.py`).
The SQL query and the `tags` normalisation (which only rewrites the unused
`tags` column) are external to the modelled stages. -/

/-- Insertion step of the stable descending-score sort
(`articles.sort(key=..., reverse=True)`; Python's sort is stable, so an
element is placed before the first earlier element with a score `≤` its own). -/
def insertByScore (a : ScoredArt) : List ScoredArt → List ScoredArt
  | [] => [a]
  | b :: t => if b.2 ≤ a.2 then a :: b :: t else b :: insertByScore a t

/-- `articles.sort(key=lambda x: x["__score"], reverse=True)`. -/
def sortByScoreDesc (l : List ScoredArt) : List ScoredArt := l.foldr insertByScore []

/-- `select_articles` after the database query: empty-frame check, dedup,
scoring, descending sort, MMR or top-N (both skipped when `max_articles` is
falsy, i.e. `0`), and stripping of the internal `__score` field. -/
def select_articles (rows : List Article) (maxArticles : ℕ) (useMmr : Bool)
    (sim : ℕ → ℕ → ℚ) : List Article :=
  match rows with
  | [] => []
  | _ :: _ =>
    let scored := (dedupArticles rows).map (fun a => (a, calculate_article_score a))
    let sorted := sortByScoreDesc scored
    let final :=
      if useMmr ∧ maxArticles ≠ 0 then apply_mmr_diversity sorted sim maxArticles (1 / 2)
      else if maxArticles ≠ 0 then sorted.take maxArticles
      else sorted
    final.map Prod.fst

lemma insertByScore_perm (a : ScoredArt) (l : List ScoredArt) :
    List.Perm (insertByScore a l) (a :: l) := by
  induction l with
  | nil => simp [insertByScore]
  | cons b t ih =>
    by_cases h : b.2 ≤ a.2
    · simp [insertByScore, h]
    · simp only [insertByScore, if_neg h]
      exact (List.Perm.cons b ih).trans (List.Perm.swap a b t)

lemma sortByScoreDesc_perm (l : List ScoredArt) : List.Perm (sortByScoreDesc l) l := by
  induction l with
  | nil => simp [sortByScoreDesc]
  | cons a t ih =>
    simpa [sortByScoreDesc] using
      (insertByScore_perm a (sortByScoreDesc t)).trans (List.Perm.cons a ih)

lemma insertByScore_pairwise (a : ScoredArt) (l : List ScoredArt)
    (h : l.Pairwise (fun x y => y.2 ≤ x.2)) :
    (insertByScore a l).Pairwise (fun x y => y.2 ≤ x.2) := by
  induction l with
  | nil => simp [insertByScore]
  | cons b t ih =>
    rcases List.pairwise_cons.mp h with ⟨hb, ht⟩
    by_cases hab : b.2 ≤ a.2
    · rw [insertByScore, if_pos hab]
      refine List.pairwise_cons.mpr ⟨?_, h⟩
      intro y hy
      rcases List.mem_cons.mp hy with rfl | hy
      · exact hab
      · exact le_trans (hb y hy) hab
    · rw [insertByScore, if_neg hab]
      refine List.pairwise_cons.mpr ⟨?_, ih ht⟩
      intro y hy
      rcases List.mem_cons.mp ((insertByScore_perm a t).mem_iff.mp hy) with rfl | hy
      · exact le_of_not_le hab
      · exact hb y hy

lemma sortByScoreDesc_pairwise (l : List ScoredArt) :
    (sortByScoreDesc l).Pairwise (fun x y => y.2 ≤ x.2) := by
  induction l with
  | nil => simp [sortByScoreDesc]
  | cons a t ih => exact insertByScore_pairwise a (sortByScoreDesc t) ih

/-- C10: calling `select_articles` with `max_articles = 0` (Python falsy)
skips both the MMR step and the top-N truncation: the result is a
permutation of the whole deduplicated candidate list — not empty when any
candidate survives — and is sorted by descending relevance score, with the
internal score field stripped (only the article records are returned). -/
theorem c10_select_articles_max_zero (rows : List Article) (useMmr : Bool)
    (sim : ℕ → ℕ → ℚ) :
    List.Perm (select_articles rows 0 useMmr sim) (dedupArticles rows)
    ∧ (select_articles rows 0 useMmr sim).Pairwise
        (fun a b => calculate_article_score b ≤ calculate_article_score a) := by
  cases rows with
  | nil =>
    constructor
    · simp [select_articles, dedupArticles, sortByTime, keepLastByKey]
    · simp [select_articles]
  | cons r rs =>
    have hfalse : ¬ (useMmr ∧ (0 : ℕ) ≠ 0) := fun h => h.2 rfl
    have hfalse2 : ¬ ((0 : ℕ) ≠ 0) := fun h => h rfl
    simp only [select_articles, if_neg hfalse, if_neg hfalse2]
    set scored := (dedupArticles (r :: rs)).map
      (fun a => (a, calculate_article_score a)) with hscored
    constructor
    · have h1 : List.Perm (sortByScoreDesc scored) scored := sortByScoreDesc_perm scored
      have h2 : List.Perm ((sortByScoreDesc scored).map Prod.fst) (scored.map Prod.fst) :=
        h1.map Prod.fst
      have h3 : scored.map Prod.fst = dedupArticles (r :: rs) := by
        rw [hscored, List.map_map]
        exact List.map_id _
      exact h3 ▸ h2
    · have hsnd : ∀ x ∈ sortByScoreDesc scored, x.2 = calculate_article_score x.1 := by
        intro x hx
        have : x ∈ scored := (sortByScoreDesc_perm scored).subset hx
        rw [hscored] at this
        rcases List.mem_map.mp this with ⟨a, _, rfl⟩
        rfl
      have hp := sortByScoreDesc_pairwise scored
      rw [List.pairwise_map]
      refine hp.imp_of_mem ?_
      intro a b ha hb hle
      rw [← hsnd a ha, ← hsnd b hb]
      exact hle

/-! ### Map / final-synthesis stages (`analysis/summarization.py`).  The
completion backend (`complete`) is an external service; it enters as the
function `backend : String → String`, and each embedded stage also reports
how many backend calls it issued. -/

/-- A line made of whitespace only (the interior of a `\n\s*\n` separator). -/
def isBlankLine (l : String) : Bool := l.data.all Char.isWhitespace

/-- Group lines into blocks separated by blank lines. -/
def splitAtBlank : List String → List (List String)
  | [] => [[]]
  | l :: ls =>
    let r := splitAtBlank ls
    if isBlankLine l then [] :: r
    else
      match r with
      | [] => [[l]]
      | g :: gs => (l :: g) :: gs

/-- `re.split(r"\n\s*\n", s)` on an already-stripped text: blocks delimited
by whitespace-only lines (the regex's greedy `\s*` merges consecutive blank
lines, mirrored by dropping empty blocks). -/
def splitBlankLines (s : String) : List String :=
  ((splitAtBlank (splitNl s)).filter (fun g => g ≠ [])).map (joinSep "\n")

/-- `split_paragraphs(text)`: split on blank lines, strip each block, keep
blocks longer than 60 characters. -/
def split_paragraphs (text : String) : List String :=
  ((splitBlankLines (pyStrip text)).map pyStrip).filter (fun p => 60 < pyLen p)

/-- The running `cur_len` of `group_paragraphs` is always
`Σ (len(p) + 2)` over the current group, so it is derived state here. -/
def curLen (cur : List String) : ℕ := (cur.map (fun p => pyLen p + 2)).sum

/-- The `for p in paras` loop of `group_paragraphs`:
flush the current group when adding `p` would exceed `max_chars` (and the
group is non-empty), then append `p` to the current group. -/
def groupGo (maxChars : ℕ) : List String → List String → List (List String)
  | [], cur => if cur = [] then [] else [cur]
  | p :: ps, cur =>
    if maxChars < curLen cur + pyLen p + 2 ∧ cur ≠ [] then
      cur :: groupGo maxChars ps [p]
    else groupGo maxChars ps (cur ++ [p])

/-- `group_paragraphs` as the underlying grouping of the paragraph list. -/
def groupParas (paras : List String) (maxChars : ℕ) : List (List String) :=
  groupGo maxChars paras []

/-- `group_paragraphs(paras, max_chars)`: the chunk strings,
each group joined with a blank line. -/
def group_paragraphs (paras : List String) (maxChars : ℕ) : List String :=
  (groupParas paras maxChars).map (joinSep "\n\n")

/-- `MAP_PROMPT_TMPL.format(ticker=..., chunk=...)` from
`analysis/summarization.py`. -/
def MAP_PROMPT (ticker chunk : String) : String :=
  "You are an analyst. Extract 3-6 FACTUAL investor-relevant bullets from the text.\n"
  ++ "Focus on: figures (revenue, EPS, margins, deliveries), guidance/roadmap, product/tech, regulation/supply chain, risks.\n"
  ++ "Avoid fluff/opinion. If nothing relevant, return 1 short bullet stating 'No material investor updates'.\n"
  ++ "\nTicker: " ++ ticker ++ "\nText:\n\"\"\"\n" ++ chunk ++ "\n\"\"\"\n"
  ++ "\nReturn bullets with hyphens, 1 line each, no numbering.\n"

/-- Parse one completion output into bullet candidates:
keep non-blank lines, strip bullet markers, keep lines longer than 3 chars. -/
def parseBullets (out : String) : List String :=
  (((splitNl out).filter (fun l => pyStrip l ≠ "")).map
    (pyStripChars " -•\t")).filter (fun l => 3 < pyLen l)

/-- `re.sub(r"\W+", " ", b.lower()).strip()`: lowercase, replace every run
of non-word characters by one space, strip (`\w` taken as ASCII
alphanumerics plus underscore, as in the bullet texts). -/
def normKey (s : String) : String :=
  pyStrip (String.mk
    (((pyLower s).data.map (fun c => if c.isAlphanum ∨ c = '_' then c else ' ')).foldr
      (fun c acc => if c = ' ' ∧ acc.headD 'x' = ' ' then acc else c :: acc) []))

/-- The first-seen deduplication loop over bullets (`seen` holds the
normalised keys already emitted). -/
def dedupBulletsGo (seen : List String) : List String → List String
  | [] => []
  | b :: bs =>
    if seen.contains (normKey b) then dedupBulletsGo seen bs
    else b :: dedupBulletsGo (normKey b :: seen) bs

/-- `map_article_to_bullets(body, ticker)`: paragraphs, chunks, one
completion call per chunk, parse, dedup, cap at 12.  The second component
counts the completion calls issued. -/
def map_article_to_bullets (backend : String → String) (body ticker : String) :
    List String × ℕ :=
  let paras := split_paragraphs body
  if paras = [] then ([], 0)
  else
    let chunks := group_paragraphs paras 1800
    ((dedupBulletsGo []
        ((chunks.map (fun ch => parseBullets (backend (MAP_PROMPT ticker ch)))).flatten)).take 12,
     chunks.length)

/-- `FINAL_SUMMARY_TMPL.format(...)` from `analysis/summarization.py`. -/
def FINAL_SUMMARY_PROMPT (ticker start stop : String)
    (targetChars minChars maxChars : ℕ) (bullets : List String) : String :=
  "Write a concise investor summary for " ++ ticker ++ " covering " ++ start
  ++ " to " ++ stop ++ ".\n\nTARGET LENGTH: approximately " ++ toString targetChars
  ++ " characters\nACCEPTABLE RANGE: " ++ toString minChars ++ "-" ++ toString maxChars
  ++ " characters\n\nUse the consolidated bullets below as your only source of truth. \n"
  ++ "\nPRIORITIES:\n1. Financial metrics (revenue, earnings, EPS, margins, guidance)\n"
  ++ "2. Key business drivers (deliveries/production for TSLA, datacenter/GPU for NVDA)\n"
  ++ "3. Material risks or opportunities\n4. Strategic developments\n"
  ++ "\nWrite in clear prose (not bullet points). Prioritize completeness over brevity - if critical \n"
  ++ "investment information requires slightly exceeding " ++ toString maxChars
  ++ " characters, that's acceptable.\n"
  ++ "Quality and accuracy matter more than hitting an exact character count.\n"
  ++ "\nConsolidated bullets:\n"
  ++ joinSep "\n" (bullets.map (fun b => "- " ++ b)) ++ "\n"

/-- `final_summary(ticker, start, end, bullets, target_chars, ...)`:
fill the defaulted ±10% range (`int(target * 0.9)` / `int(target * 1.1)`),
build the prompt, issue one completion call unconditionally, and return its
stripped output (soft guidance, no truncation).  Second component counts the
completion calls issued. -/
def final_summary (backend : String → String) (ticker start stop : String)
    (bullets : List String) (targetChars : ℕ) (minChars maxChars : Option ℕ) :
    String × ℕ :=
  let minC := minChars.getD (targetChars * 9 / 10)
  let maxC := maxChars.getD (targetChars * 11 / 10)
  (pyStrip (backend
    (FINAL_SUMMARY_PROMPT ticker start stop targetChars minC maxC bullets)), 1)

/-- The `summary_text` logic of `run` in
`scripts/make_ticker_period_summary.py`: call `final_summary`, and only if
its output strips to empty fall back to joined bullets or to the templated
no-news message (note the trailing period in the source). -/
def run_summary_text (backend : String → String) (ticker start stop : String)
    (consolidated : List String) (targetChars : ℕ) : String :=
  let maxC := targetChars * 11 / 10
  let s := pyStrip (final_summary backend ticker start stop consolidated targetChars
    (some (targetChars * 9 / 10)) (some maxC)).1
  if s = "" then
    if consolidated ≠ [] then pyTake (joinSep " • " consolidated) maxC
    else "No finance-relevant news selected for " ++ ticker ++ " in [" ++ start
      ++ " → " ++ stop ++ ")."
  else s

lemma pyLen_append (a b : String) : pyLen (a ++ b) = pyLen a + pyLen b := by
  simp [pyLen, String.data_append]

lemma joinSep_two_len (cur : List String) (h : cur ≠ []) :
    pyLen (joinSep "\n\n" cur) + 2 = curLen cur := by
  induction cur with
  | nil => exact absurd rfl h
  | cons p rest ih =>
    cases rest with
    | nil => simp [joinSep, curLen]
    | cons q ps =>
      have := ih (by simp)
      rw [joinSep, pyLen_append, pyLen_append]
      simp only [curLen, List.map_cons, List.sum_cons] at this ⊢
      have h2 : pyLen "\n\n" = 2 := rfl
      omega

lemma groupGo_flatten (maxChars : ℕ) :
    ∀ (ps cur : List String), (groupGo maxChars ps cur).flatten = cur ++ ps := by
  intro ps
  induction ps with
  | nil =>
    intro cur
    by_cases h : cur = []
    · subst h; simp [groupGo]
    · simp [groupGo, h]
  | cons p ps ih =>
    intro cur
    rw [groupGo]
    by_cases h : maxChars < curLen cur + pyLen p + 2 ∧ cur ≠ []
    · rw [if_pos h]
      simp only [List.flatten_cons, ih [p]]
      simp
    · rw [if_neg h]
      rw [ih (cur ++ [p])]
      simp

lemma groupGo_bound (maxChars : ℕ) :
    ∀ (ps cur : List String),
      ((∃ p, cur = [p]) ∨ curLen cur ≤ maxChars + 2) →
      ∀ g ∈ groupGo maxChars ps cur,
        pyLen (joinSep "\n\n" g) ≤ maxChars ∨ ∃ p, g = [p] ∧ (p ∈ cur ∨ p ∈ ps) := by
  intro ps
  induction ps with
  | nil =>
    intro cur hinv g hg
    by_cases h : cur = []
    · subst h; simp [groupGo] at hg
    · simp only [groupGo, if_neg h, List.mem_singleton] at hg
      subst hg
      rcases hinv with ⟨p, rfl⟩ | hlen
      · exact Or.inr ⟨p, rfl, Or.inl (List.mem_singleton_self p)⟩
      · refine Or.inl ?_
        have := joinSep_two_len g h
        omega
  | cons p ps ih =>
    intro cur hinv g hg
    rw [groupGo] at hg
    by_cases h : maxChars < curLen cur + pyLen p + 2 ∧ cur ≠ []
    · rw [if_pos h] at hg
      rcases List.mem_cons.mp hg with rfl | hg
      · rcases hinv with ⟨q, rfl⟩ | hlen
        · exact Or.inr ⟨q, rfl, Or.inl (List.mem_singleton_self q)⟩
        · refine Or.inl ?_
          have := joinSep_two_len g h.2
          omega
      · rcases ih [p] (Or.inl ⟨p, rfl⟩) g hg with hb | ⟨q, rfl, hq⟩
        · exact Or.inl hb
        · refine Or.inr ⟨q, rfl, Or.inr ?_⟩
          rcases hq with hq | hq
          · have : q = p := by simpa using hq
            exact this ▸ List.mem_cons_self _ _
          · exact List.mem_cons_of_mem _ hq
    · rw [if_neg h] at hg
      have hinv' : (∃ q, cur ++ [p] = [q]) ∨ curLen (cur ++ [p]) ≤ maxChars + 2 := by
        by_cases hc : cur = []
        · subst hc; exact Or.inl ⟨p, rfl⟩
        · refine Or.inr ?_
          have hle : curLen cur + pyLen p + 2 ≤ maxChars := by
            rcases Decidable.not_and_iff_or_not.mp h with h1 | h2
            · omega
            · exact absurd hc (by simpa using h2)
          have : curLen (cur ++ [p]) = curLen cur + (pyLen p + 2) := by
            simp [curLen]
          omega
      rcases ih (cur ++ [p]) hinv' g hg with hb | ⟨q, rfl, hq⟩
      · exact Or.inl hb
      · refine Or.inr ⟨q, rfl, ?_⟩
        rcases hq with hq | hq
        · rcases List.mem_append.mp hq with hq | hq
          · exact Or.inl hq
          · have : q = p := by simpa using hq
            exact Or.inr (this ▸ List.mem_cons_self _ _)
        · exact Or.inr (List.mem_cons_of_mem _ hq)

/-- C9 amended: `group_paragraphs` concatenates the paragraph list exactly
(no paragraph is split, lost or reordered), and every chunk respects the
character budget unless it consists of a single paragraph that is itself
longer than the budget — in which case the chunk is that paragraph. -/
theorem c9_group_paragraphs_amended (paras : List String) (maxChars : ℕ) :
    (groupParas paras maxChars).flatten = paras
    ∧ ∀ chunk ∈ group_paragraphs paras maxChars,
        pyLen chunk ≤ maxChars ∨ chunk ∈ paras := by
  constructor
  · simpa using groupGo_flatten maxChars paras []
  · intro chunk hchunk
    rcases List.mem_map.mp hchunk with ⟨g, hg, rfl⟩
    rcases groupGo_bound maxChars paras [] (Or.inr (by simp [curLen])) g hg
      with hb | ⟨p, rfl, hp⟩
    · exact Or.inl hb
    · rcases hp with hp | hp
      · simp at hp
      · exact Or.inr (by simpa [joinSep] using hp)

/-- C9 witness: the amended bound applied to a concrete chunk of
`group_paragraphs ["ab", "cd"] 5` (both fit under the budget of 5). -/
theorem c9_group_paragraphs_amended_witness :
    pyLen "ab" ≤ 5 ∨ "ab" ∈ ["ab", "cd"] :=
  (c9_group_paragraphs_amended ["ab", "cd"] 5).2 "ab" (by decide)

set_option maxRecDepth 40000 in
/-- C9 counterexample: a single 1801-character paragraph under the default
budget of 1800 becomes one chunk of 1801 characters, exceeding the budget. -/
theorem c9_group_paragraphs_counterexample :
    group_paragraphs [String.mk (List.replicate 1801 'a')] 1800
      = [String.mk (List.replicate 1801 'a')]
    ∧ 1800 < pyLen (String.mk (List.replicate 1801 'a')) := by
  constructor
  · rfl
  · simp [pyLen]

/-- C8: on any article body none of whose blank-line-separated blocks
strips to more than 60 characters, the Map stage returns the empty bullet
list and issues zero completion calls. -/
theorem c8_map_stage_empty (backend : String → String) (body ticker : String)
    (h : ∀ p ∈ splitBlankLines (pyStrip body), pyLen (pyStrip p) ≤ 60) :
    map_article_to_bullets backend body ticker = ([], 0) := by
  have hp : split_paragraphs body = [] := by
    rw [split_paragraphs]
    rw [List.filter_eq_nil_iff]
    intro a ha
    rcases List.mem_map.mp ha with ⟨p, hpmem, rfl⟩
    have := h p hpmem
    simp only [decide_eq_true_eq]
    omega
  rw [map_article_to_bullets, hp, if_pos rfl]

/-- C8 witness: a two-paragraph body whose paragraphs are both short,
with a backend that would return a bullet if it were ever called. -/
theorem c8_map_stage_empty_witness :
    map_article_to_bullets (fun _ => "- a long factual bullet about revenue")
      "tiny paragraph\n\nalso quite a small one" "NVDA" = ([], 0) :=
  c8_map_stage_empty (fun _ => "- a long factual bullet about revenue")
    "tiny paragraph\n\nalso quite a small one" "NVDA" (by decide)

/-- C7 counterexample: called with an empty bullet list, `final_summary`
still issues exactly one completion call (not zero) and returns the
backend's stripped text, not the templated no-news message. -/
theorem c7_final_summary_counterexample :
    (final_summary (fun _ => " An investor summary. ") "NVDA" "2025-10-01"
        "2025-10-08" [] 1800 none none).2 = 1
    ∧ (final_summary (fun _ => " An investor summary. ") "NVDA" "2025-10-01"
        "2025-10-08" [] 1800 none none).1
      ≠ "No finance-relevant news selected for NVDA in [2025-10-01 → 2025-10-08)" := by
  constructor
  · rfl
  · decide

/-- C7 amended: `final_summary` always issues exactly one completion call,
bullets or not; the deterministic message — with a trailing period, unlike
the claim — is produced by the calling script `run` only when the completion
output strips to empty and the consolidated bullet list is empty. -/
theorem c7_final_summary_amended (backend : String → String)
    (ticker start stop : String) (bullets : List String) (targetChars : ℕ)
    (hb : ∀ p, pyStrip (backend p) = "") :
    (final_summary backend ticker start stop bullets targetChars none none).2 = 1
    ∧ run_summary_text backend ticker start stop [] targetChars
        = "No finance-relevant news selected for " ++ ticker ++ " in [" ++ start
          ++ " → " ++ stop ++ ")." := by
  constructor
  · rfl
  · rw [run_summary_text]
    simp only [final_summary, hb]
    rw [if_pos (show pyStrip "" = "" from rfl), if_neg (by simp)]

/-- C7 witness: the amended theorem with a backend returning only
whitespace, at concrete ticker and period bounds. -/
theorem c7_final_summary_amended_witness :
    (final_summary (fun _ => "  ") "NVDA" "2025-10-01" "2025-10-08" []
        1800 none none).2 = 1
    ∧ run_summary_text (fun _ => "  ") "NVDA" "2025-10-01" "2025-10-08" [] 1800
        = "No finance-relevant news selected for NVDA in [2025-10-01 → 2025-10-08)." := by
  have h := c7_final_summary_amended (fun _ => "  ") "NVDA" "2025-10-01"
    "2025-10-08" [] 1800 (fun _ => rfl)
  exact ⟨h.1, h.2.trans (by decide)⟩

/-! ### Completion client (`core/llm/llm.py` and `src/aifinreport/llm/client.py`).
`_complete_mistral` is identical in both files.  A backend is modelled as the
outcome of each `client.chat.complete` call, per model and attempt index;
exceptions other than `MistralSDKError` propagate uncaught (`fatal`). -/

/-- Outcome of one `client.chat.complete(model, ...)` call. -/
inductive MOutcome where
  | ok (text : String)
  | sdkErr (msg : String)
  | fatal (msg : String)
deriving DecidableEq

/-- The transient-capacity classification of `_complete_mistral`:
`"429" in msg or "capacity" in msg.lower()`. -/
def isTransientMsg (msg : String) : Bool :=
  pyContains msg "429" || pyContains (pyLower msg) "capacity"

/-- Whether an outcome is an SDK error classified transient-capacity. -/
def isTransientFail : MOutcome → Bool
  | .sdkErr m => isTransientMsg m
  | _ => false

/-- Observable run of `_complete_mistral`: the returned value (`error` for a
re-raised exception, `ok none` for `return None` on unavailability or
exhaustion), the number of backend calls made, and the `time.sleep`
durations issued. -/
structure MistralRun where
  result : Except String (Option String)
  calls : ℕ
  sleeps : List ℚ

/-- The `for attempt in range(max_retries)` loop of `_complete_mistral`,
with `r` attempts remaining: success returns the text, a transient SDK error
sleeps `base_sleep * (2 ** attempt)` and continues, any other error
re-raises; falling off the loop returns `None`. -/
def mistralLoop (backend : ℕ → MOutcome) (base : ℚ) : ℕ → ℕ → MistralRun
  | _, 0 => ⟨.ok none, 0, []⟩
  | attempt, r + 1 =>
    match backend attempt with
    | .ok t => ⟨.ok (some t), 1, []⟩
    | .fatal m => ⟨.error m, 1, []⟩
    | .sdkErr m =>
      if isTransientMsg m then
        let rest := mistralLoop backend base (attempt + 1) r
        ⟨rest.result, rest.calls + 1, base * 2 ^ attempt :: rest.sleeps⟩
      else ⟨.error m, 1, []⟩

/-- `_complete_mistral(prompt, model, max_retries=4, base_sleep=1.0)`:
`None` without any call when the SDK or key is missing, else the retry
loop from attempt 0. -/
def completeMistral (available : Bool) (backend : ℕ → MOutcome)
    (maxRetries : ℕ) (base : ℚ) : MistralRun :=
  if available then mistralLoop backend base 0 maxRetries else ⟨.ok none, 0, []⟩

lemma mistralLoop_calls_le (backend : ℕ → MOutcome) (base : ℚ) :
    ∀ (r attempt : ℕ), (mistralLoop backend base attempt r).calls ≤ r := by
  intro r
  induction r with
  | zero => intro attempt; simp [mistralLoop]
  | succ r ih =>
    intro attempt
    rw [mistralLoop]
    cases backend attempt with
    | ok t => simp
    | fatal m => simp
    | sdkErr m =>
      by_cases hm : isTransientMsg m
      · simp only [if_pos hm]
        have := ih (attempt + 1)
        omega
      · simp [if_neg hm]

lemma mistralLoop_pre_transient (backend : ℕ → MOutcome) (base : ℚ) :
    ∀ (r attempt i : ℕ), i + 1 < (mistralLoop backend base attempt r).calls →
      isTransientFail (backend (attempt + i)) = true := by
  intro r
  induction r with
  | zero => intro attempt i h; simp [mistralLoop] at h
  | succ r ih =>
    intro attempt i
    rw [mistralLoop]
    cases hba : backend attempt with
    | ok t => intro h; simp at h
    | fatal m => intro h; simp at h
    | sdkErr m =>
      dsimp only
      by_cases hm : isTransientMsg m
      · rw [if_pos hm]
        dsimp only
        intro h
        cases i with
        | zero => simpa [isTransientFail, hba] using hm
        | succ j =>
          have hj : j + 1 < (mistralLoop backend base (attempt + 1) r).calls := by omega
          have := ih (attempt + 1) j hj
          have harith : attempt + 1 + j = attempt + (j + 1) := by omega
          rw [harith] at this
          exact this
      · rw [if_neg hm]
        intro h
        simp at h

lemma mistralLoop_exhausted (backend : ℕ → MOutcome) (base : ℚ) :
    ∀ (r attempt : ℕ), (mistralLoop backend base attempt r).result = .ok none →
      (mistralLoop backend base attempt r).calls = r
      ∧ ∀ i < r, isTransientFail (backend (attempt + i)) = true := by
  intro r
  induction r with
  | zero => intro attempt _; exact ⟨rfl, by omega⟩
  | succ r ih =>
    intro attempt
    rw [mistralLoop]
    cases hba : backend attempt with
    | ok t => intro h; simp at h
    | fatal m => intro h; simp at h
    | sdkErr m =>
      dsimp only
      by_cases hm : isTransientMsg m
      · rw [if_pos hm]
        dsimp only
        intro h
        obtain ⟨hc, hall⟩ := ih (attempt + 1) h
        refine ⟨by omega, fun i hi => ?_⟩
        cases i with
        | zero => simpa [isTransientFail, hba] using hm
        | succ j =>
          have := hall j (by omega)
          have harith : attempt + 1 + j = attempt + (j + 1) := by omega
          rw [harith] at this
          exact this
      · rw [if_neg hm]
        intro h
        simp at h

lemma mistralLoop_sleeps (backend : ℕ → MOutcome) (base : ℚ) :
    ∀ (r attempt : ℕ), (mistralLoop backend base attempt r).sleeps
      = (List.range (mistralLoop backend base attempt r).sleeps.length).map
          (fun i => base * 2 ^ (attempt + i)) := by
  intro r
  induction r with
  | zero => intro attempt; simp [mistralLoop]
  | succ r ih =>
    intro attempt
    rw [mistralLoop]
    cases backend attempt with
    | ok t => simp
    | fatal m => simp
    | sdkErr m =>
      dsimp only
      by_cases hm : isTransientMsg m
      · rw [if_pos hm]
        dsimp only
        rw [List.length_cons, List.range_succ_eq_map, List.map_cons, List.map_map]
        refine congrArg₂ (· :: ·) (by rw [Nat.add_zero]) ?_
        conv_lhs => rw [ih (attempt + 1)]
        refine List.map_congr_left ?_
        intro i _
        simp only [Function.comp]
        have : attempt + 1 + i = attempt + (i + 1) := by omega
        rw [this]
      · simp [if_neg hm]

lemma mistralLoop_nontransient_raises (backend : ℕ → MOutcome) (base : ℚ) :
    ∀ (r attempt i : ℕ) (m : String), i < r →
      (∀ j, j < i → isTransientFail (backend (attempt + j)) = true) →
      backend (attempt + i) = .sdkErr m → isTransientMsg m = false →
      (mistralLoop backend base attempt r).result = .error m
      ∧ (mistralLoop backend base attempt r).calls = i + 1 := by
  intro r
  induction r with
  | zero => intro attempt i m hi _ _ _; omega
  | succ r ih =>
    intro attempt i m hi hpre hbi hm
    rw [mistralLoop]
    cases i with
    | zero =>
      rw [Nat.add_zero] at hbi
      rw [hbi]
      simp [hm]
    | succ j =>
      have htr : isTransientFail (backend attempt) = true := by
        have := hpre 0 (by omega)
        simpa using this
      cases hba : backend attempt with
      | ok t => rw [hba] at htr; simp [isTransientFail] at htr
      | fatal m2 => rw [hba] at htr; simp [isTransientFail] at htr
      | sdkErr m2 =>
        rw [hba] at htr
        have hm2 : isTransientMsg m2 = true := by simpa [isTransientFail] using htr
        dsimp only
        rw [if_pos hm2]
        have hrec := ih (attempt + 1) j m (by omega)
          (fun j2 hj2 => by
            have := hpre (j2 + 1) (by omega)
            have harith : attempt + (j2 + 1) = attempt + 1 + j2 := by omega
            rw [harith] at this
            exact this)
          (by
            have harith : attempt + 1 + j = attempt + (j + 1) := by omega
            rw [harith]
            exact hbi)
          hm
        dsimp only
        exact ⟨hrec.1, by rw [hrec.2]⟩

/-- C4: `_complete_mistral` makes at most 4 backend attempts; every attempt
that was followed by another had failed with a transient-capacity error
(retry happens only for rate-limit / capacity SDK errors); the successive
sleeps are exactly `base · 2^attempt`; exhaustion (`None`) means all 4
attempts failed transiently; and a non-transient SDK error at any attempt is
re-raised immediately, ending the run at that attempt. -/
theorem c4_mistral_retry_policy (backend : ℕ → MOutcome) (base : ℚ) :
    (completeMistral true backend 4 base).calls ≤ 4
    ∧ (∀ i, i + 1 < (completeMistral true backend 4 base).calls →
        isTransientFail (backend i) = true)
    ∧ ((completeMistral true backend 4 base).result = .ok none →
        (completeMistral true backend 4 base).calls = 4
        ∧ ∀ i < 4, isTransientFail (backend i) = true)
    ∧ ((completeMistral true backend 4 base).sleeps
        = (List.range (completeMistral true backend 4 base).sleeps.length).map
            (fun i => base * 2 ^ i))
    ∧ (∀ i m, i < 4 → (∀ j, j < i → isTransientFail (backend j) = true) →
        backend i = .sdkErr m → isTransientMsg m = false →
        (completeMistral true backend 4 base).result = .error m
        ∧ (completeMistral true backend 4 base).calls = i + 1) := by
  have hunf : completeMistral true backend 4 base = mistralLoop backend base 0 4 := by
    rw [completeMistral, if_pos rfl]
  rw [hunf]
  refine ⟨mistralLoop_calls_le backend base 4 0, ?_, ?_, ?_, ?_⟩
  · intro i h
    have := mistralLoop_pre_transient backend base 4 0 i h
    simpa using this
  · intro h
    obtain ⟨hc, hall⟩ := mistralLoop_exhausted backend base 4 0 h
    exact ⟨hc, fun i hi => by simpa using hall i hi⟩
  · have := mistralLoop_sleeps backend base 4 0
    simpa using this
  · intro i m hi hpre hbi hm
    exact mistralLoop_nontransient_raises backend base 4 0 i m hi
      (fun j hj => by simpa using hpre j hj) (by simpa using hbi) hm

/-- C4 witness: a backend whose first attempt hits a 429 and whose second
fails with a non-transient error: the run re-raises at attempt 2 of 4. -/
theorem c4_mistral_retry_policy_witness :
    (completeMistral true
        (fun i => if i = 0 then MOutcome.sdkErr "429 Too Many Requests"
                  else MOutcome.sdkErr "bad request") 4 1).result
      = .error "bad request"
    ∧ (completeMistral true
        (fun i => if i = 0 then MOutcome.sdkErr "429 Too Many Requests"
                  else MOutcome.sdkErr "bad request") 4 1).calls = 2 :=
  (c4_mistral_retry_policy
      (fun i => if i = 0 then MOutcome.sdkErr "429 Too Many Requests"
                else MOutcome.sdkErr "bad request") 1).2.2.2.2 1 "bad request"
    (by omega)
    (fun j hj => by
      have : j = 0 := by omega
      subst this
      decide)
    (by decide) (by decide)

/-! ### `complete(prompt)` orchestration.  `core/llm/llm.py` and
`src/aifinreport/llm/client.py` differ only in configuration plumbing — and
in that `client.py`'s fallback loop reads the names `MISTRAL_FALLBACKS` and
`OPENAI_MODEL`, which that module never defines (it imports
`LLM_MISTRAL_FALLBACKS` / `LLM_MODEL` from `aifinreport.config`), so
reaching them raises `NameError`. -/

/-- One backend invocation, as observable from outside `complete`. -/
inductive LLMCall where
  | mistral (model : String) (attempt : ℕ)
  | openai
deriving DecidableEq

/-- The environment `complete` runs against: SDK/key availability for both
providers, the per-model Mistral backend, the OpenAI `output_text`, and the
backoff base. -/
structure LLMEnv where
  mistralAvailable : Bool
  openaiAvailable : Bool
  backend : String → ℕ → MOutcome
  openaiText : Option String
  base : ℚ

/-- `_complete_mistral(prompt, model)` with the module defaults
(`max_retries=4`). -/
def runMistralModel (env : LLMEnv) (model : String) : MistralRun :=
  completeMistral env.mistralAvailable (env.backend model) 4 env.base

/-- The calls one `_complete_mistral(prompt, model)` invocation issues. -/
def modelLog (env : LLMEnv) (model : String) : List LLMCall :=
  (List.range (runMistralModel env model).calls).map (LLMCall.mistral model)

/-- Python truthiness of an `Optional[str]`: `None` and `""` are falsy. -/
def truthy : Option String → Bool
  | none => false
  | some s => !(s == "")

/-- The primary-then-fallbacks sequence of `complete` (mistral path):
`out = _complete_mistral(prompt, m); if out: return out` for each model in
turn; a raised exception propagates with the calls made so far. -/
def tryModels (env : LLMEnv) : List String → Except String (Option String) × List LLMCall
  | [] => (.ok none, [])
  | m :: rest =>
    match (runMistralModel env m).result with
    | .error e => (.error e, modelLog env m)
    | .ok out =>
      if truthy out then (.ok out, modelLog env m)
      else
        let next := tryModels env rest
        (next.1, modelLog env m ++ next.2)

/-- `_complete_openai(prompt)` in `llm.py`: `None` without a call when key
or SDK is missing, else one call returning `output_text`. -/
def openaiRun (env : LLMEnv) : Option String × List LLMCall :=
  if env.openaiAvailable then (env.openaiText, [LLMCall.openai]) else (none, [])

/-- How `complete` terminates. -/
inductive CompleteOutcome where
  | text (s : String)
  | raised (msg : String)
  | runtimeError (msg : String)
  | valueError (provider : String)
deriving DecidableEq

/-- `complete(prompt)` from `core/llm/llm.py`: primary with retries, then
each fallback model, then OpenAI, then `RuntimeError`; the OpenAI provider
path goes to OpenAI first with the primary Mistral model as fallback. -/
def complete_llm (env : LLMEnv) (provider primary : String)
    (fallbacks : List String) : CompleteOutcome × List LLMCall :=
  if provider = "mistral" then
    match tryModels env (primary :: fallbacks) with
    | (.error m, lg) => (.raised m, lg)
    | (.ok (some s), lg) => (.text s, lg)
    | (.ok none, lg) =>
      let o := openaiRun env
      if truthy o.1 then (.text (o.1.getD ""), lg ++ o.2)
      else (.runtimeError
        "All LLM backends failed (Mistral capacity + OpenAI unavailable).",
        lg ++ o.2)
  else if provider = "openai" then
    let o := openaiRun env
    if truthy o.1 then (.text (o.1.getD ""), o.2)
    else
      match (runMistralModel env primary).result with
      | .error m => (.raised m, o.2 ++ modelLog env primary)
      | .ok out =>
        if truthy out then (.text (out.getD ""), o.2 ++ modelLog env primary)
        else (.runtimeError "OpenAI failed and no working Mistral fallback available.",
          o.2 ++ modelLog env primary)
  else (.valueError provider, [])

/-- `complete(prompt)` from `src/aifinreport/llm/client.py`: identical to
`llm.py` except that its fallback loop evaluates the undefined name
`MISTRAL_FALLBACKS` (raising `NameError` before any fallback call) and its
`_complete_openai` evaluates the undefined `OPENAI_MODEL` before issuing
any request whenever OpenAI is available. -/
def complete_client (env : LLMEnv) (provider primary : String)
    (_fallbacks : List String) : CompleteOutcome × List LLMCall :=
  if provider = "mistral" then
    match (runMistralModel env primary).result with
    | .error m => (.raised m, modelLog env primary)
    | .ok out =>
      if truthy out then (.text (out.getD ""), modelLog env primary)
      else (.raised "NameError: name MISTRAL_FALLBACKS is not defined",
        modelLog env primary)
  else if provider = "openai" then
    if env.openaiAvailable then
      (.raised "NameError: name OPENAI_MODEL is not defined", [])
    else
      match (runMistralModel env primary).result with
      | .error m => (.raised m, modelLog env primary)
      | .ok out =>
        if truthy out then (.text (out.getD ""), modelLog env primary)
        else (.runtimeError "OpenAI failed and no working Mistral fallback available.",
          modelLog env primary)
  else (.valueError provider, [])

lemma runMistralModel_calls_le (env : LLMEnv) (m : String) :
    (runMistralModel env m).calls ≤ 4 := by
  rw [runMistralModel, completeMistral]
  by_cases h : env.mistralAvailable
  · rw [if_pos h]
    exact mistralLoop_calls_le (env.backend m) env.base 4 0
  · rw [if_neg h]
    decide

lemma tryModels_log (env : LLMEnv) :
    ∀ models : List String, ∃ k,
      (tryModels env models).2 = ((models.take k).map (modelLog env)).flatten := by
  intro models
  induction models with
  | nil => exact ⟨0, by simp [tryModels]⟩
  | cons m rest ih =>
    rw [tryModels]
    cases hr : (runMistralModel env m).result with
    | error e => exact ⟨1, by simp⟩
    | ok out =>
      dsimp only
      by_cases ht : truthy out
      · rw [if_pos ht]
        exact ⟨1, by simp⟩
      · rw [if_neg ht]
        obtain ⟨k, hk⟩ := ih
        exact ⟨k + 1, by simp [hk]⟩

/-- C5 amended: on the mistral path, `complete` invokes the retrying helper
`_complete_mistral` at most once per model — primary first, then the
fallbacks in configured order (the models actually tried are a prefix of
that list), possibly followed by one OpenAI call — but each helper
invocation makes up to 4 backend attempts for its model, not exactly one. -/
theorem c5_fallback_once_amended (env : LLMEnv) (primary : String)
    (fallbacks : List String) :
    ∃ k tail,
      (complete_llm env "mistral" primary fallbacks).2
        = (((primary :: fallbacks).take k).map (modelLog env)).flatten ++ tail
      ∧ (tail = [] ∨ tail = [LLMCall.openai])
      ∧ ∀ m, (runMistralModel env m).calls ≤ 4 := by
  obtain ⟨k, hk⟩ := tryModels_log env (primary :: fallbacks)
  have hcalls : ∀ m, (runMistralModel env m).calls ≤ 4 :=
    fun m => runMistralModel_calls_le env m
  rw [complete_llm, if_pos rfl]
  rcases htm : tryModels env (primary :: fallbacks) with ⟨res, lg⟩
  have hlg : lg = (((primary :: fallbacks).take k).map (modelLog env)).flatten := by
    rw [htm] at hk
    exact hk
  cases res with
  | error m => exact ⟨k, [], by simpa using hlg, Or.inl rfl, hcalls⟩
  | ok out =>
    cases out with
    | some s => exact ⟨k, [], by simpa using hlg, Or.inl rfl, hcalls⟩
    | none =>
      dsimp only
      by_cases ho : truthy (openaiRun env).1
      · rw [if_pos ho]
        refine ⟨k, (openaiRun env).2, by rw [hlg], ?_, hcalls⟩
        rw [openaiRun]
        by_cases ha : env.openaiAvailable
        · rw [if_pos ha]; exact Or.inr rfl
        · rw [if_neg ha]; exact Or.inl rfl
      · rw [if_neg ho]
        refine ⟨k, (openaiRun env).2, by rw [hlg], ?_, hcalls⟩
        rw [openaiRun]
        by_cases ha : env.openaiAvailable
        · rw [if_pos ha]; exact Or.inr rfl
        · rw [if_neg ha]; exact Or.inl rfl

/-- C5 counterexample: with every backend call failing transiently, fallback
model `"m-fb1"` receives 4 backend attempts from `complete`, not exactly
one. -/
theorem c5_fallback_once_counterexample :
    ((complete_llm ⟨true, false, fun _ _ => MOutcome.sdkErr "429", none, 1⟩
        "mistral" "m-primary" ["m-fb1", "m-fb2"]).2.countP
      (fun c => match c with
        | LLMCall.mistral m _ => m == "m-fb1"
        | LLMCall.openai => false)) = 4
    ∧ ¬ ((4 : ℕ) = 1) := by
  constructor
  · decide
  · decide

/-- C6 (code bug in `client.py`): primary exhausts its 4 transient-capacity
retries, fallback #1 would succeed and OpenAI is available — yet `complete`
raises `NameError` (the module never defines `MISTRAL_FALLBACKS`) after only
the 4 primary attempts: no fallback and no OpenAI call is ever made, and no
text is returned. -/
theorem c6_client_fallback_name_bug :
    complete_client
        ⟨true, true,
         (fun model _ => if model == "mistral-small-latest"
            then MOutcome.sdkErr "429 capacity" else MOutcome.ok ("FB " ++ model)),
         some "OPENAI", 1⟩
        "mistral" "mistral-small-latest"
        ["mistral-medium-latest", "mistral-large-latest"]
      = (.raised "NameError: name MISTRAL_FALLBACKS is not defined",
         (List.range 4).map (LLMCall.mistral "mistral-small-latest")) := by
  decide

end Finreport
